import Mathlib

/-!
# RFFC5071 bit-banged serial transport (`firmware/common/rffc5071_spi.c`)

A shallow embedding of the HackRF driver that talks to the RFFC5071 mixer over
three GPIO lines (clock, bidirectional data, active-low enable) plus an
active-low reset line.

The hardware is a record of the four output latches and the four direction
bits, together with the chronological log of every access the driver makes.
The level read back from the data pin (`MIXER_SDATA_STATE`, a macro of
`hackrf_core.h`) is a parameter of every operation that samples: an arbitrary
function of the whole bus, log included, so it covers a chip answering with any
sequence of levels as well as a loopback wiring.
-/

namespace Rffc5071

/-- Modelled from the spec: the pin constants `PORT_MIXER_*`/`PIN_MIXER_*` and
`SCU_MIXER_*` of `hackrf_core.h` are not in the source file; they name the four
digital lines of the interface (clock, data, enable, reset), four distinct
pins. -/
inductive Line where
  | sclk
  | sdata
  | enx
  | resetx
  deriving DecidableEq, Repr

/-- One access of the driver to the hardware, in the order of the source. -/
inductive Event where
  /-- A call of `scu_pinmux` for the pin of a line. -/
  | pinmux (l : Line)
  /-- A write of the direction bit of a line in `GPIO_DIR`; `true` is output. -/
  | dir (l : Line) (out : Bool)
  /-- A call of `gpio_set` (`true`) or `gpio_clear` (`false`) on a line. -/
  | drive (l : Line) (level : Bool)
  /-- A read of `MIXER_SDATA_STATE` that returned `level`. -/
  | sample (level : Bool)
  /-- One call of `rffc5071_spi_serial_delay` (its two `nop` iterations). -/
  | delay
  deriving DecidableEq, Repr

/-- Output latches and direction bits of the four lines. -/
structure Lines where
  sclk : Bool
  sdata : Bool
  enx : Bool
  resetx : Bool
  sclk_out : Bool
  sdata_out : Bool
  enx_out : Bool
  resetx_out : Bool
  deriving DecidableEq, Repr

/-- The bus: current line state and the log of all accesses so far. -/
structure Bus where
  lines : Lines
  log : List Event
  deriving DecidableEq, Repr

/-- The macro `MIXER_SDATA_STATE` of `hackrf_core.h` is not in the source file and
is a parameter of the model: the level the data pin returns when it is read, as
a function of everything that happened on the bus so far. -/
abbrev Pin := Bus → Bool

/-- Effect of one access on the latches and direction bits. -/
def Lines.step (s : Lines) : Event → Lines
  | .drive .sclk v => { s with sclk := v }
  | .drive .sdata v => { s with sdata := v }
  | .drive .enx v => { s with enx := v }
  | .drive .resetx v => { s with resetx := v }
  | .dir .sclk o => { s with sclk_out := o }
  | .dir .sdata o => { s with sdata_out := o }
  | .dir .enx o => { s with enx_out := o }
  | .dir .resetx o => { s with resetx_out := o }
  | .pinmux _ => s
  | .sample _ => s
  | .delay => s

/-- Perform one access: update the lines and append it to the log. -/
def emit (e : Event) (b : Bus) : Bus :=
  { lines := b.lines.step e, log := b.log ++ [e] }

/-- Modelled from the spec: the GPIO primitive `gpio_set(port, pin)` drives the
line to the high level (it raises the output latch of that pin only). -/
def gpio_set (l : Line) (b : Bus) : Bus := emit (.drive l true) b

/-- Modelled from the spec: the GPIO primitive `gpio_clear(port, pin)` drives the
line to the low level (it lowers the output latch of that pin only). -/
def gpio_clear (l : Line) (b : Bus) : Bus := emit (.drive l false) b

/-- Modelled from the spec: the pin configuration primitive `scu_pinmux(pin, conf)`
sets a pin up for fast GPIO use; it changes no latch and no direction bit. -/
def scu_pinmux (l : Line) (b : Bus) : Bus := emit (.pinmux l) b

def rffc5071_spi_target_select (b : Bus) : Bus := gpio_clear .enx b

def rffc5071_spi_target_unselect (b : Bus) : Bus := gpio_set .enx b

/-- Sets the direction bit of the data pin: `GPIO_DIR(PORT_MIXER_SDATA) |= PIN_MIXER_SDATA`. -/
def rffc5071_spi_direction_out (b : Bus) : Bus := emit (.dir .sdata true) b

/-- Clears the direction bit of the data pin: `GPIO_DIR(PORT_MIXER_SDATA) &= ~PIN_MIXER_SDATA`. -/
def rffc5071_spi_direction_in (b : Bus) : Bus := emit (.dir .sdata false) b

def rffc5071_spi_data_out (bit : Bool) (b : Bus) : Bus :=
  if bit then gpio_set .sdata b else gpio_clear .sdata b

/-- Reads the data pin, `return MIXER_SDATA_STATE;` the read is logged with the
level it returned. -/
def rffc5071_spi_data_in (pin : Pin) (b : Bus) : Bool × Bus :=
  (pin b, emit (.sample (pin b)) b)

def rffc5071_spi_bus_init (b : Bus) : Bus :=
  let b := scu_pinmux .sclk b
  let b := scu_pinmux .sdata b
  let b := emit (.dir .sclk true) b
  let b := rffc5071_spi_direction_out b
  let b := gpio_clear .sclk b
  gpio_clear .sdata b

def rffc5071_spi_target_init (b : Bus) : Bus :=
  let b := scu_pinmux .enx b
  let b := scu_pinmux .resetx b
  let b := emit (.dir .enx true) b
  let b := emit (.dir .resetx true) b
  let b := rffc5071_spi_target_unselect b
  gpio_set .resetx b

def rffc5071_spi_init (b : Bus) : Bus :=
  rffc5071_spi_target_init (rffc5071_spi_bus_init b)

/-- The busy loop `for (i = 0; i < 2; i++) nop`: touches no line. -/
def rffc5071_spi_serial_delay (b : Bus) : Bus := emit .delay b

def rffc5071_spi_sck (b : Bus) : Bus :=
  let b := rffc5071_spi_serial_delay b
  let b := gpio_set .sclk b
  let b := rffc5071_spi_serial_delay b
  gpio_clear .sclk b

/-- The argument `bit` is a `uint32_t`; it is converted to `bool` (non-zero is
true) on the call of `rffc5071_spi_data_out`. -/
def rffc5071_spi_exchange_bit (pin : Pin) (bit : Nat) (b : Bus) : Nat × Bus :=
  let b := rffc5071_spi_data_out (decide (bit ≠ 0)) b
  let b := rffc5071_spi_sck b
  let r := rffc5071_spi_data_in pin b
  (if r.1 then 1 else 0, r.2)

/-- The loop `while (bits--) t = (t << 1) | exchange_bit(t & msb)` on a 32-bit
accumulator. -/
def exchange_word_loop (pin : Pin) (msb : Nat) : Nat → Nat → Bus → Nat × Bus
  | 0, t, b => (t, b)
  | bits + 1, t, b =>
    let r := rffc5071_spi_exchange_bit pin (t &&& msb) b
    exchange_word_loop pin msb bits (((t <<< 1) % 2 ^ 32) ||| r.1) r.2

/-- Words are `uint32_t`, `1UL` is 32 bits wide on the target. The C shifts are
defined for `1 ≤ count ≤ 31` only; the driver calls it with 9 and 16. -/
def rffc5071_spi_exchange_word (pin : Pin) (data : Nat) (count : Nat) (b : Bus) :
    Nat × Bus :=
  let msb := (1 <<< (count - 1)) % 2 ^ 32
  let r := exchange_word_loop pin msb count (data % 2 ^ 32) b
  (r.1 &&& ((1 <<< count) % 2 ^ 32 - 1), r.2)

/-- The buffer `_data` is the list of `uint16_t` words it points to; a call with
`count = 2` on a buffer shorter than two words reads out of bounds and has no
result. The stores to `data[0]` and `data[1]` truncate to 16 bits. -/
def rffc5071_spi_transfer (pin : Pin) (b : Bus) (data : List Nat) (count : Nat) :
    Option (Bus × List Nat) :=
  if count ≠ 2 then some (b, data)
  else
    match data with
    | d0 :: d1 :: rest =>
      let direction_read := decide ((d0 >>> 7) &&& 1 ≠ 0)
      let b := rffc5071_spi_sck b
      let b := rffc5071_spi_sck b
      let b := rffc5071_spi_target_select b
      let r0 := rffc5071_spi_exchange_word pin d0 9 b
      let b := r0.2
      let b := if direction_read then rffc5071_spi_sck (rffc5071_spi_direction_in b) else b
      let r1 := rffc5071_spi_exchange_word pin d1 16 b
      let b := r1.2
      let b := rffc5071_spi_serial_delay b
      let b := rffc5071_spi_target_unselect b
      let b := rffc5071_spi_direction_out b
      let b := rffc5071_spi_sck b
      some (b, (r0.1 % 2 ^ 16) :: (r1.1 % 2 ^ 16) :: rest)
    | _ => none

/-- One segment of a gather transfer (`spi_transfer_t`): a buffer of words and
its word count. -/
structure spi_transfer_t where
  data : List Nat
  count : Nat
  deriving DecidableEq, Repr

/-- The array `transfer` is the list of segments it points to; `count == 1` on
an empty array reads out of bounds and has no result. -/
def rffc5071_spi_transfer_gather (pin : Pin) (b : Bus) (transfer : List spi_transfer_t)
    (count : Nat) : Option (Bus × List spi_transfer_t) :=
  if count = 1 then
    match transfer with
    | seg :: rest =>
      match rffc5071_spi_transfer pin b seg.data seg.count with
      | some (b', data') => some (b', { seg with data := data' } :: rest)
      | none => none
    | [] => none
  else some (b, transfer)

/-! ## Definitions used to state the properties -/

/-- Perform a list of accesses in order. -/
def play (evs : List Event) (b : Bus) : Bus :=
  evs.foldl (fun acc e => emit e acc) b

/-- The four accesses of one `rffc5071_spi_sck`: a clock pulse. -/
def pulse : List Event :=
  [.delay, .drive .sclk true, .delay, .drive .sclk false]

/-- Run of a list of bit exchanges driving the levels `vs` in order: the levels
sampled and the bus reached. -/
def wordRun (pin : Pin) : List Bool → Bus → List Bool × Bus
  | [], b => ([], b)
  | v :: vs, b =>
    let b1 := play (.drive .sdata v :: pulse) b
    let r := wordRun pin vs (emit (.sample (pin b1)) b1)
    (pin b1 :: r.1, r.2)

/-- The accesses of a run of bit exchanges that drives `vs` and samples `ss`. -/
def wordEvents : List Bool → List Bool → List Event
  | v :: vs, s :: ss => (.drive .sdata v :: pulse) ++ .sample s :: wordEvents vs ss
  | _, _ => []

/-- The `n` bits of `t` from position `k` downwards. -/
def bitsFrom (t : Nat) : Nat → Nat → List Bool
  | _, 0 => []
  | k, n + 1 => t.testBit k :: bitsFrom t (k - 1) n

/-- Bits `n-1, ..., 0` of `t`, most significant first. -/
def bitsMSB (t n : Nat) : List Bool := bitsFrom t (n - 1) n

/-- The number assembled from a list of bits, most significant first. -/
def ofBitsMSB : List Bool → Nat
  | [] => 0
  | s :: ss => s.toNat * 2 ^ ss.length + ofBitsMSB ss

/-- The 32-bit accumulator after shifting in the sampled bits `ss`. -/
def accum (t : Nat) (ss : List Bool) : Nat :=
  ss.foldl (fun a s => ((a <<< 1) % 2 ^ 32) ||| s.toNat) t

/-- The accesses of a 2-word transfer that drives `v1` then `v2` and reads `s1`
then `s2`: two pulses, select, the command exchange, for a read the switch of
the data line to input and one pulse, the data exchange, a delay, deselect, the
data line back to output, one pulse. -/
def transferEvents (read : Bool) (v1 s1 v2 s2 : List Bool) : List Event :=
  pulse ++ pulse ++ [.drive .enx false] ++ wordEvents v1 s1 ++
    (if read then .dir .sdata false :: pulse else []) ++ wordEvents v2 s2 ++
    [.delay, .drive .enx true, .dir .sdata true] ++ pulse

/-- The nine levels read during the command exchange of a transfer of `c`
started on bus `b`. -/
def cmdSamples (pin : Pin) (b : Bus) (c : Nat) : List Bool :=
  (wordRun pin (bitsMSB c 9) (play (pulse ++ pulse ++ [.drive .enx false]) b)).1

/-- The sixteen levels read during the data exchange of a transfer of `(c, d)`
started on bus `b`. -/
def dataSamples (pin : Pin) (b : Bus) (c d : Nat) : List Bool :=
  (wordRun pin (bitsMSB d 16)
    (play (pulse ++ pulse ++ [.drive .enx false] ++ wordEvents (bitsMSB c 9) (cmdSamples pin b c) ++
      (if c.testBit 7 then .dir .sdata false :: pulse else [])) b)).1

/-- The levels read from the data line, in order. -/
def samplesOf (evs : List Event) : List Bool :=
  evs.filterMap (fun e => match e with | .sample s => some s | _ => none)

/-- The levels driven onto the data line, in order. -/
def drivenOf (evs : List Event) : List Bool :=
  evs.filterMap (fun e => match e with | .drive .sdata v => some v | _ => none)

/-- The levels written to the clock line, in order. -/
def clockOf (evs : List Event) : List Bool :=
  evs.filterMap (fun e => match e with | .drive .sclk v => some v | _ => none)

/-- The clock writes of `n` complete pulses: high, low, `n` times. -/
def clockPulses : Nat → List Bool
  | 0 => []
  | n + 1 => true :: false :: clockPulses n

/-- A data pin wired back to the driver: a read returns the level most recently
driven on the data line. -/
def loopback : Pin := fun b => b.lines.sdata

/-- A chip that keeps the data line low during the nine command clocks of a
transfer started on an empty log and then answers with the 16 bits of `0xBEEF`,
most significant first. -/
def chipBEEF : Pin := fun b =>
  decide (9 ≤ (samplesOf b.log).length) && (0xBEEF : Nat).testBit (24 - (samplesOf b.log).length)

/-- The bus as `rffc5071_spi_init` leaves it, with an empty log. -/
def idleBus : Bus :=
  { lines := { sclk := false, sdata := false, enx := true, resetx := true,
               sclk_out := true, sdata_out := true, enx_out := true, resetx_out := true },
    log := [] }

/-- The idle state of the bus between transactions: enable inactive (high),
reset inactive (high), clock low, data line an output. -/
def Idle (l : Lines) : Prop :=
  l.enx = true ∧ l.resetx = true ∧ l.sclk = false ∧ l.sdata_out = true

/-- Accesses that leave the reset line and the directions of the clock, enable
and reset lines alone. -/
def sparesResetAndDirections : Event → Bool
  | .drive .resetx _ => false
  | .dir .sdata _ => true
  | .dir _ _ => false
  | _ => true

/-- The control accesses of a list: everything but the levels driven on the data
line and the reads of the data line (clock writes, enable writes, direction
writes and delays remain, in order). -/
def controlOf (evs : List Event) : List Event :=
  evs.filter (fun e => match e with
    | .drive .sdata _ => false
    | .sample _ => false
    | _ => true)

/-- The accesses of `n` clock pulses in a row. -/
def pulses : Nat → List Event
  | 0 => []
  | n + 1 => pulse ++ pulses n

/-- The level of the clock latch after an access, given the level before. -/
def clockAfter (clk : Bool) : Event → Bool
  | .drive .sclk v => v
  | _ => clk

/-- Accesses other than clock writes and delays: the ones that have to happen
while the clock is low. -/
def needsLowClock : Event → Bool
  | .drive .sclk _ => false
  | .delay => false
  | _ => true

/-- Walk along a list of accesses from clock level `clk`: the clock level at the
end if every access other than a clock write or a delay was met with the clock
low, and `none` otherwise. -/
def lowClockWalk : Bool → List Event → Option Bool
  | clk, [] => some clk
  | clk, e :: es =>
    if needsLowClock e && clk then none else lowClockWalk (clockAfter clk e) es

/-- A data pin that reads back the driver's own level while the data line is an
output, and the level `chip` puts on the line while it is an input. -/
def readback (chip : Pin) : Pin := fun b =>
  if b.lines.sdata_out then b.lines.sdata else chip b

/-! ## The driver as a run of accesses -/

theorem play_nil (b : Bus) : play [] b = b := rfl

theorem play_cons (e : Event) (evs : List Event) (b : Bus) :
    play (e :: evs) b = play evs (emit e b) := rfl

theorem play_append (xs ys : List Event) (b : Bus) :
    play (xs ++ ys) b = play ys (play xs b) := by
  simp [play, List.foldl_append]

theorem log_play (evs : List Event) (b : Bus) : (play evs b).log = b.log ++ evs := by
  induction evs generalizing b with
  | nil => simp [play]
  | cons e evs ih => rw [play_cons, ih]; simp [emit]

theorem lines_play (evs : List Event) (b : Bus) :
    (play evs b).lines = evs.foldl Lines.step b.lines := by
  induction evs generalizing b with
  | nil => simp [play]
  | cons e evs ih => rw [play_cons, ih]; simp [emit]

theorem sck_eq (b : Bus) : rffc5071_spi_sck b = play pulse b := rfl

theorem exchange_bit_eq (pin : Pin) (bit : Nat) (b : Bus) :
    rffc5071_spi_exchange_bit pin bit b =
      ((pin (play (.drive .sdata (decide (bit ≠ 0)) :: pulse) b)).toNat,
        emit (.sample (pin (play (.drive .sdata (decide (bit ≠ 0)) :: pulse) b)))
          (play (.drive .sdata (decide (bit ≠ 0)) :: pulse) b)) := by
  have h : rffc5071_spi_sck (rffc5071_spi_data_out (decide (bit ≠ 0)) b) =
      play (.drive .sdata (decide (bit ≠ 0)) :: pulse) b := by
    rw [sck_eq, play_cons]
    by_cases hb : bit = 0 <;> simp [hb, rffc5071_spi_data_out, gpio_set, gpio_clear]
  simp only [rffc5071_spi_exchange_bit, rffc5071_spi_data_in, h]
  cases pin (play (.drive .sdata (decide (bit ≠ 0)) :: pulse) b) <;> rfl

theorem wordRun_length (pin : Pin) (vs : List Bool) (b : Bus) :
    (wordRun pin vs b).1.length = vs.length := by
  induction vs generalizing b with
  | nil => rfl
  | cons v vs ih => simp [wordRun, ih]

theorem wordRun_bus (pin : Pin) (vs : List Bool) (b : Bus) :
    (wordRun pin vs b).2 = play (wordEvents vs (wordRun pin vs b).1) b := by
  induction vs generalizing b with
  | nil => rfl
  | cons v vs ih =>
    simp only [wordRun, wordEvents]
    rw [ih, play_append, play_cons]
    rfl

theorem and_two_pow_ne_zero (t k : Nat) : decide (t &&& 2 ^ k ≠ 0) = t.testBit k := by
  rw [Nat.and_two_pow]
  cases t.testBit k <;> simp

theorem accum_step (t : Nat) (s : Bool) :
    ((t <<< 1) % 2 ^ 32) ||| s.toNat = (2 * t) % 2 ^ 32 + s.toNat := by
  have h : (t <<< 1) % 2 ^ 32 = 2 ^ 1 * (t % 2 ^ 31) := by
    rw [Nat.shiftLeft_eq]; omega
  rw [h, ← Nat.mul_add_lt_is_or (by cases s <;> simp)]
  omega

theorem testBit_accum_step (t : Nat) (s : Bool) (k : Nat) (hk : k < 32) (hk0 : 0 < k) :
    (((t <<< 1) % 2 ^ 32) ||| s.toNat).testBit k = t.testBit (k - 1) := by
  rw [Nat.testBit_or, Nat.testBit_mod_two_pow, Nat.testBit_shiftLeft, Nat.testBit_bool_to_nat]
  have h1 : k ≥ 1 := hk0
  have h2 : ¬ k = 0 := by omega
  simp [hk, h1, h2]

theorem bitsFrom_accum_step (t : Nat) (s : Bool) (n : Nat) :
    ∀ k, n ≤ k → k < 32 →
      bitsFrom (((t <<< 1) % 2 ^ 32) ||| s.toNat) k n = bitsFrom t (k - 1) n := by
  induction n with
  | zero => intros; rfl
  | succ n ih =>
    intro k hn hk
    simp only [bitsFrom]
    rw [testBit_accum_step t s k hk (by omega), ih (k - 1) (by omega) (by omega)]

theorem loop_eq (pin : Pin) (k : Nat) (hk : k < 32) (n : Nat) :
    ∀ t b, n ≤ k + 1 →
      exchange_word_loop pin (2 ^ k) n t b =
        (accum t (wordRun pin (bitsFrom t k n) b).1, (wordRun pin (bitsFrom t k n) b).2) := by
  induction n with
  | zero => intros; rfl
  | succ n ih =>
    intro t b hn
    simp only [exchange_word_loop, exchange_bit_eq, and_two_pow_ne_zero]
    rw [ih _ _ (by omega), bitsFrom_accum_step t _ n k (by omega) hk]
    rfl

theorem step_mod (t s j : Nat) (hs : s < 2) (hj : j + 1 ≤ 32) :
    ((2 * t) % 2 ^ 32 + s) % 2 ^ (j + 1) = 2 * (t % 2 ^ j) + s := by
  have hd : 2 ^ (j + 1) ∣ 2 ^ 32 := Nat.pow_dvd_pow 2 hj
  have hm : 0 < 2 ^ j := Nat.two_pow_pos j
  have hlt : t % 2 ^ j < 2 ^ j := Nat.mod_lt t hm
  rw [Nat.add_mod, Nat.mod_mod_of_dvd _ hd, Nat.pow_succ, Nat.mul_comm (2 ^ j) 2,
    Nat.mul_mod_mul_left, Nat.mod_eq_of_lt (a := s) (by omega), Nat.mod_eq_of_lt (by omega)]

theorem accum_mod (ss : List Bool) :
    ∀ t j, ss.length + j ≤ 32 →
      accum t ss % 2 ^ (ss.length + j) = (t % 2 ^ j) * 2 ^ ss.length + ofBitsMSB ss := by
  induction ss with
  | nil => intro t j _; simp [accum, ofBitsMSB]
  | cons s ss ih =>
    intro t j h
    have hlen : (s :: ss).length + j = ss.length + (j + 1) := by simp; omega
    have hacc : accum t (s :: ss) = accum ((2 * t) % 2 ^ 32 + s.toNat) ss := by
      simp only [accum, List.foldl_cons, accum_step]
    rw [hlen, hacc, ih _ (j + 1) (by simp at h; omega),
      step_mod t s.toNat j (by cases s <;> simp) (by simp at h; omega)]
    simp only [ofBitsMSB, List.length_cons]
    ring

theorem ofBitsMSB_lt (ss : List Bool) : ofBitsMSB ss < 2 ^ ss.length := by
  induction ss with
  | nil => simp [ofBitsMSB]
  | cons s ss ih =>
    simp only [ofBitsMSB, List.length_cons, Nat.pow_succ]
    cases s <;> simp <;> omega

theorem bitsFrom_mod_two_pow (t m n : Nat) :
    ∀ k, k < m → bitsFrom (t % 2 ^ m) k n = bitsFrom t k n := by
  induction n with
  | zero => intros; rfl
  | succ n ih =>
    intro k hk
    simp only [bitsFrom, Nat.testBit_mod_two_pow, hk, decide_True, Bool.true_and]
    rw [ih (k - 1) (by omega)]

theorem bitsFrom_length (t n : Nat) : ∀ k, (bitsFrom t k n).length = n := by
  induction n with
  | zero => intros; rfl
  | succ n ih => intro k; simp [bitsFrom, ih]

theorem bitsMSB_length (t n : Nat) : (bitsMSB t n).length = n := bitsFrom_length t n _

/-- The word exchange as a run of bit exchanges: it drives bits `n-1 .. 0` of
`data` and returns the sampled bits assembled most significant first. -/
theorem exchange_word_eq (pin : Pin) (data n : Nat) (b : Bus) (hn : n ≤ 31) :
    rffc5071_spi_exchange_word pin data n b =
      (ofBitsMSB (wordRun pin (bitsMSB data n) b).1, (wordRun pin (bitsMSB data n) b).2) := by
  have hmsb : (1 <<< (n - 1)) % 2 ^ 32 = 2 ^ (n - 1) := by
    rw [Nat.one_shiftLeft]
    exact Nat.mod_eq_of_lt (Nat.pow_lt_pow_right (by decide) (by omega))
  have hmask : (1 <<< n) % 2 ^ 32 = 2 ^ n := by
    rw [Nat.one_shiftLeft]
    exact Nat.mod_eq_of_lt (Nat.pow_lt_pow_right (by decide) (by omega))
  simp only [rffc5071_spi_exchange_word, hmsb, hmask]
  rw [loop_eq pin (n - 1) (by omega) n _ b (by omega), bitsFrom_mod_two_pow data 32 n (n - 1) (by omega)]
  simp only [bitsMSB, Nat.and_pow_two_sub_one_eq_mod]
  have hl : (wordRun pin (bitsFrom data (n - 1) n) b).1.length = n := by
    rw [wordRun_length, bitsFrom_length]
  have h := accum_mod (wordRun pin (bitsFrom data (n - 1) n) b).1 (data % 2 ^ 32) 0
    (by rw [hl]; omega)
  rw [hl] at h
  simp only [Nat.add_zero, Nat.pow_zero, Nat.mod_one, Nat.zero_mul, Nat.zero_add] at h
  rw [h]

theorem direction_read_eq (c : Nat) : decide ((c >>> 7) &&& 1 ≠ 0) = c.testBit 7 := by
  rw [Nat.testBit, Nat.and_comm]
  cases h : (1 &&& c >>> 7 != 0) <;> simp_all

theorem cmdSamples_length (pin : Pin) (b : Bus) (c : Nat) : (cmdSamples pin b c).length = 9 := by
  rw [cmdSamples, wordRun_length, bitsMSB_length]

theorem dataSamples_length (pin : Pin) (b : Bus) (c d : Nat) :
    (dataSamples pin b c d).length = 16 := by
  rw [dataSamples, wordRun_length, bitsMSB_length]

theorem transfer_eq (pin : Pin) (b : Bus) (c d : Nat) (rest : List Nat) :
    rffc5071_spi_transfer pin b (c :: d :: rest) 2 =
      some (play (transferEvents (c.testBit 7) (bitsMSB c 9) (cmdSamples pin b c)
              (bitsMSB d 16) (dataSamples pin b c d)) b,
            ofBitsMSB (cmdSamples pin b c) :: ofBitsMSB (dataSamples pin b c d) :: rest) := by
  have h0 : ofBitsMSB (cmdSamples pin b c) % 2 ^ 16 = ofBitsMSB (cmdSamples pin b c) := by
    apply Nat.mod_eq_of_lt
    have h := ofBitsMSB_lt (cmdSamples pin b c)
    rw [cmdSamples_length] at h
    omega
  have h1 : ofBitsMSB (dataSamples pin b c d) % 2 ^ 16 = ofBitsMSB (dataSamples pin b c d) := by
    apply Nat.mod_eq_of_lt
    have h := ofBitsMSB_lt (dataSamples pin b c d)
    rw [dataSamples_length] at h
    exact h
  have hsel : rffc5071_spi_target_select (rffc5071_spi_sck (rffc5071_spi_sck b)) =
      play (pulse ++ pulse ++ [.drive .enx false]) b := rfl
  simp only [rffc5071_spi_transfer, ne_eq, not_true_eq_false, if_false, direction_read_eq,
    exchange_word_eq pin _ 9 _ (by decide), exchange_word_eq pin _ 16 _ (by decide), hsel]
  have hc : (wordRun pin (bitsMSB c 9) (play (pulse ++ pulse ++ [.drive .enx false]) b)).1 =
      cmdSamples pin b c := rfl
  rw [wordRun_bus pin (bitsMSB c 9), hc]
  have hmid : (if c.testBit 7 = true then
        rffc5071_spi_sck (rffc5071_spi_direction_in
          (play (wordEvents (bitsMSB c 9) (cmdSamples pin b c))
            (play (pulse ++ pulse ++ [.drive .enx false]) b)))
      else play (wordEvents (bitsMSB c 9) (cmdSamples pin b c))
            (play (pulse ++ pulse ++ [.drive .enx false]) b)) =
      play (pulse ++ pulse ++ [.drive .enx false] ++
        wordEvents (bitsMSB c 9) (cmdSamples pin b c) ++
        (if c.testBit 7 then .dir .sdata false :: pulse else [])) b := by
    cases c.testBit 7
    · simp only [Bool.false_eq_true, if_false, List.append_nil, play_append]
    · simp only [if_true, play_append]; rfl
  have hd : (wordRun pin (bitsMSB d 16) (play (pulse ++ pulse ++ [.drive .enx false] ++
        wordEvents (bitsMSB c 9) (cmdSamples pin b c) ++
        (if c.testBit 7 then .dir .sdata false :: pulse else [])) b)).1 =
      dataSamples pin b c d := rfl
  have htail : ∀ y, rffc5071_spi_sck (rffc5071_spi_direction_out
      (rffc5071_spi_target_unselect (rffc5071_spi_serial_delay y))) =
      play ([.delay, .drive .enx true, .dir .sdata true] ++ pulse) y := fun _ => rfl
  rw [hmid, wordRun_bus pin (bitsMSB d 16), hd, htail, h0, h1]
  simp only [← play_append, transferEvents, List.append_assoc]


/-! ## Projections of the accesses of a transfer -/

theorem samplesOf_append (xs ys : List Event) :
    samplesOf (xs ++ ys) = samplesOf xs ++ samplesOf ys := by
  simp [samplesOf]

theorem drivenOf_append (xs ys : List Event) :
    drivenOf (xs ++ ys) = drivenOf xs ++ drivenOf ys := by
  simp [drivenOf]

theorem clockOf_append (xs ys : List Event) :
    clockOf (xs ++ ys) = clockOf xs ++ clockOf ys := by
  simp [clockOf]

theorem clockPulses_add (m n : Nat) : clockPulses (m + n) = clockPulses m ++ clockPulses n := by
  induction m with
  | zero => simp [clockPulses]
  | succ m ih =>
    have h : m + 1 + n = (m + n) + 1 := by omega
    rw [h]
    simp [clockPulses, ih]

theorem samplesOf_wordEvents (vs : List Bool) :
    ∀ ss : List Bool, vs.length = ss.length → samplesOf (wordEvents vs ss) = ss := by
  induction vs with
  | nil => intro ss h; cases ss with
    | nil => rfl
    | cons s ss => simp at h
  | cons v vs ih => intro ss h; cases ss with
    | nil => simp at h
    | cons s ss =>
      have h2 : vs.length = ss.length := by simpa using h
      have := ih ss h2
      simp only [samplesOf] at this
      simp [wordEvents, samplesOf, pulse, this]

theorem drivenOf_wordEvents (vs : List Bool) :
    ∀ ss : List Bool, vs.length = ss.length → drivenOf (wordEvents vs ss) = vs := by
  induction vs with
  | nil => intro ss h; cases ss with
    | nil => rfl
    | cons s ss => simp at h
  | cons v vs ih => intro ss h; cases ss with
    | nil => simp at h
    | cons s ss =>
      have h2 : vs.length = ss.length := by simpa using h
      have := ih ss h2
      simp only [drivenOf] at this
      simp [wordEvents, drivenOf, pulse, this]

theorem clockOf_wordEvents (vs : List Bool) :
    ∀ ss : List Bool, vs.length = ss.length →
      clockOf (wordEvents vs ss) = clockPulses ss.length := by
  induction vs with
  | nil => intro ss h; cases ss with
    | nil => rfl
    | cons s ss => simp at h
  | cons v vs ih => intro ss h; cases ss with
    | nil => simp at h
    | cons s ss =>
      have h2 : vs.length = ss.length := by simpa using h
      have := ih ss h2
      simp only [clockOf] at this
      simp [wordEvents, clockOf, pulse, this, clockPulses]

theorem mem_wordEvents (e : Event) (vs : List Bool) :
    ∀ ss : List Bool, e ∈ wordEvents vs ss →
      (∃ v, e = .drive .sdata v) ∨ e ∈ pulse ∨ ∃ s, e = .sample s := by
  induction vs with
  | nil => intro ss h; simp [wordEvents] at h
  | cons v vs ih => intro ss h; cases ss with
    | nil => simp [wordEvents] at h
    | cons s ss =>
      simp only [wordEvents, List.cons_append, List.mem_cons, List.mem_append] at h
      rcases h with h | h | h | h
      · exact Or.inl ⟨v, h⟩
      · exact Or.inr (Or.inl h)
      · exact Or.inr (Or.inr ⟨s, h⟩)
      · exact ih ss h

theorem samplesOf_transferEvents (r : Bool) (v1 s1 v2 s2 : List Bool)
    (h1 : v1.length = s1.length) (h2 : v2.length = s2.length) :
    samplesOf (transferEvents r v1 s1 v2 s2) = s1 ++ s2 := by
  have hp : samplesOf pulse = [] := rfl
  have hr : samplesOf (if r = true then Event.dir Line.sdata false :: pulse else []) = [] := by
    cases r <;> rfl
  have ht : samplesOf [Event.delay, Event.drive Line.enx true, Event.dir Line.sdata true] = [] :=
    rfl
  have hs : samplesOf [Event.drive Line.enx false] = [] := rfl
  simp only [transferEvents, samplesOf_append, hp, hr, ht, hs, samplesOf_wordEvents _ _ h1,
    samplesOf_wordEvents _ _ h2, List.append_nil, List.nil_append]

theorem drivenOf_transferEvents (r : Bool) (v1 s1 v2 s2 : List Bool)
    (h1 : v1.length = s1.length) (h2 : v2.length = s2.length) :
    drivenOf (transferEvents r v1 s1 v2 s2) = v1 ++ v2 := by
  have hp : drivenOf pulse = [] := rfl
  have hr : drivenOf (if r = true then Event.dir Line.sdata false :: pulse else []) = [] := by
    cases r <;> rfl
  have ht : drivenOf [Event.delay, Event.drive Line.enx true, Event.dir Line.sdata true] = [] :=
    rfl
  have hs : drivenOf [Event.drive Line.enx false] = [] := rfl
  simp only [transferEvents, drivenOf_append, hp, hr, ht, hs, drivenOf_wordEvents _ _ h1,
    drivenOf_wordEvents _ _ h2, List.append_nil, List.nil_append]


/-! ## Properties of the transfer -/

/-- C1: a 2-word transfer reads the data line exactly 25 times; on return word 0
is the first 9 levels read, assembled most significant first, and word 1 is the
next 16, whatever the two words held before. The direction switch and clock
pulse of a read lie between the 9th and the 10th read and contain no read. A
chip answering `0xBEEF` in the data phase of `transfer(0b000000101, 0x0000)`
yields the data word `0xBEEF`. -/
theorem transfer_returns_sampled_bits (pin : Pin) (b : Bus) (c d : Nat) (rest : List Nat) :
    ∃ evs w0 w1,
      rffc5071_spi_transfer pin b (c :: d :: rest) 2 = some (play evs b, w0 :: w1 :: rest) ∧
      (samplesOf evs).length = 25 ∧
      w0 = ofBitsMSB ((samplesOf evs).take 9) ∧
      w1 = ofBitsMSB ((samplesOf evs).drop 9) ∧
      (∃ pre post,
        evs = pre ++ (if c.testBit 7 then Event.dir Line.sdata false :: pulse else []) ++ post ∧
        (samplesOf pre).length = 9 ∧ (samplesOf post).length = 16) ∧
      (rffc5071_spi_transfer chipBEEF idleBus [0b000000101, 0x0000] 2).map Prod.snd =
        some [0, 0xBEEF] := by
  have hc := cmdSamples_length pin b c
  have hd := dataSamples_length pin b c d
  have hs := samplesOf_transferEvents (c.testBit 7) (bitsMSB c 9) (cmdSamples pin b c)
    (bitsMSB d 16) (dataSamples pin b c d) (by rw [bitsMSB_length, hc])
    (by rw [bitsMSB_length, hd])
  refine ⟨_, _, _, transfer_eq pin b c d rest, ?_, ?_, ?_, ?_, ?_⟩
  · rw [hs, List.length_append, hc, hd]
  · rw [hs, List.take_left' hc]
  · rw [hs, List.drop_left' hc]
  · refine ⟨pulse ++ pulse ++ [Event.drive Line.enx false] ++
        wordEvents (bitsMSB c 9) (cmdSamples pin b c),
      wordEvents (bitsMSB d 16) (dataSamples pin b c d) ++
        [Event.delay, Event.drive Line.enx true, Event.dir Line.sdata true] ++ pulse, ?_, ?_, ?_⟩
    · simp only [transferEvents, List.append_assoc]
    · have hp : samplesOf pulse = [] := rfl
      have he : samplesOf [Event.drive Line.enx false] = [] := rfl
      rw [samplesOf_append, samplesOf_append, samplesOf_append, hp, he,
        samplesOf_wordEvents _ _ (by rw [bitsMSB_length, hc])]
      simpa using hc
    · have hp : samplesOf pulse = [] := rfl
      have he : samplesOf [Event.delay, Event.drive Line.enx true, Event.dir Line.sdata true] =
          [] := rfl
      rw [samplesOf_append, samplesOf_append, hp, he,
        samplesOf_wordEvents _ _ (by rw [bitsMSB_length, hd])]
      simpa using hd
  · decide

theorem bitsMSB_nine (c : Nat) :
    bitsMSB c 9 = (List.range 9).map (fun i => c.testBit (8 - i)) := rfl

theorem bitsMSB_sixteen (d : Nat) :
    bitsMSB d 16 = (List.range 16).map (fun i => d.testBit (15 - i)) := rfl

/-- C2: the levels driven onto the data line during a 2-word transfer of `(c, d)`
are exactly 25: bits 8, 7, ..., 0 of `c` followed by bits 15, 14, ..., 0 of `d`,
whatever is read back; bits 9 and above of `c` are not driven (the transfer of
`c mod 2^9` drives the same levels). -/
theorem transfer_drives_command_then_data (pin : Pin) (b : Bus) (c d : Nat)
    (rest : List Nat) :
    ∃ evs ws evs2 ws2,
      rffc5071_spi_transfer pin b (c :: d :: rest) 2 = some (play evs b, ws) ∧
      (drivenOf evs).length = 25 ∧
      drivenOf evs = (List.range 9).map (fun i => c.testBit (8 - i)) ++
        (List.range 16).map (fun i => d.testBit (15 - i)) ∧
      rffc5071_spi_transfer pin b ((c % 2 ^ 9) :: d :: rest) 2 = some (play evs2 b, ws2) ∧
      drivenOf evs2 = drivenOf evs := by
  have hdrv : ∀ x, drivenOf (transferEvents (Nat.testBit x 7) (bitsMSB x 9) (cmdSamples pin b x)
      (bitsMSB d 16) (dataSamples pin b x d)) = bitsMSB x 9 ++ bitsMSB d 16 := fun x =>
    drivenOf_transferEvents _ _ _ _ _
      (by rw [bitsMSB_length, cmdSamples_length]) (by rw [bitsMSB_length, dataSamples_length])
  refine ⟨_, _, _, _, transfer_eq pin b c d rest, ?_, ?_, transfer_eq pin b (c % 2 ^ 9) d rest, ?_⟩
  · rw [hdrv, List.length_append, bitsMSB_length, bitsMSB_length]
  · rw [hdrv, bitsMSB_nine, bitsMSB_sixteen]
  · rw [hdrv, hdrv]
    have h : bitsMSB (c % 2 ^ 9) 9 = bitsMSB c 9 := bitsFrom_mod_two_pow c 9 9 8 (by decide)
    rw [h]


theorem wordRun_loopback (vs : List Bool) : ∀ b : Bus, (wordRun loopback vs b).1 = vs := by
  induction vs with
  | nil => intro b; rfl
  | cons v vs ih =>
    intro b
    simp only [wordRun, ih]
    rfl

theorem ofBitsMSB_bitsMSB (t n : Nat) : ofBitsMSB (bitsMSB t n) = t % 2 ^ n := by
  induction n with
  | zero => simp [bitsMSB, bitsFrom, ofBitsMSB, Nat.mod_one]
  | succ n ih =>
    have h : bitsMSB t (n + 1) = t.testBit n :: bitsMSB t n := rfl
    rw [h, ofBitsMSB, ih, bitsMSB_length, Nat.toNat_testBit, Nat.mod_pow_succ]
    ring

theorem exchange_word_loopback (b : Bus) (value n : Nat) (hn : n ≤ 31) :
    (rffc5071_spi_exchange_word loopback value n b).1 = value % 2 ^ n := by
  rw [exchange_word_eq loopback value n b hn]
  simp only [wordRun_loopback, ofBitsMSB_bitsMSB]

/-- C3: with the data pin looped back (each read returns the level most recently
driven), exchanging a value below `2^9` over 9 bits, or a value below `2^16`
over 16 bits, returns the value itself. -/
theorem exchange_word_loopback_roundtrip (b : Bus) (value n : Nat)
    (hn : n = 9 ∨ n = 16) (hv : value < 2 ^ n) :
    (rffc5071_spi_exchange_word loopback value n b).1 = value := by
  rw [exchange_word_loopback b value n (by omega), Nat.mod_eq_of_lt hv]

theorem exchange_word_loopback_roundtrip_witness :
    ((9 = 9 ∨ 9 = 16) ∧ 0x155 < 2 ^ 9 ∧
      (rffc5071_spi_exchange_word loopback 0x155 9 idleBus).1 = 0x155) ∧
    ((16 = 9 ∨ 16 = 16) ∧ 0xBEEF < 2 ^ 16 ∧
      (rffc5071_spi_exchange_word loopback 0xBEEF 16 idleBus).1 = 0xBEEF) :=
  ⟨⟨Or.inl rfl, by decide,
      exchange_word_loopback_roundtrip idleBus 0x155 9 (Or.inl rfl) (by decide)⟩,
    ⟨Or.inr rfl, by decide,
      exchange_word_loopback_roundtrip idleBus 0xBEEF 16 (Or.inr rfl) (by decide)⟩⟩


theorem dir_not_mem_wordEvents (l : Line) (o : Bool) (vs ss : List Bool) :
    Event.dir l o ∉ wordEvents vs ss := by
  intro h
  rcases mem_wordEvents _ vs ss h with ⟨v, hv⟩ | hp | ⟨s, hs⟩
  · cases hv
  · simp [pulse] at hp
  · cases hs

theorem enx_not_mem_wordEvents (o : Bool) (vs ss : List Bool) :
    Event.drive Line.enx o ∉ wordEvents vs ss := by
  intro h
  rcases mem_wordEvents _ vs ss h with ⟨v, hv⟩ | hp | ⟨s, hs⟩
  · cases hv
  · simp [pulse] at hp
  · cases hs

theorem dir_not_mem_pulse (l : Line) (o : Bool) : Event.dir l o ∉ pulse := by
  simp [pulse]

theorem enx_not_mem_pulse (o : Bool) : Event.drive Line.enx o ∉ pulse := by
  simp [pulse]

theorem sdata_out_stays (evs : List Event) (h : Event.dir Line.sdata false ∉ evs) :
    ∀ b : Bus, b.lines.sdata_out = true → (play evs b).lines.sdata_out = true := by
  induction evs with
  | nil => intro b hb; exact hb
  | cons e evs ih =>
    intro b hb
    rw [play_cons]
    apply ih (fun hm => h (List.mem_cons_of_mem _ hm))
    have he : e ≠ Event.dir Line.sdata false := fun heq => h (heq ▸ List.mem_cons_self _ _)
    cases e with
    | pinmux l => exact hb
    | sample v => exact hb
    | delay => exact hb
    | drive l v => cases l <;> exact hb
    | dir l o =>
      cases l
      · exact hb
      · cases o
        · exact absurd rfl he
        · rfl
      · exact hb
      · exact hb

theorem enx_stays (evs : List Event) (h : Event.drive Line.enx false ∉ evs) :
    ∀ b : Bus, b.lines.enx = true → (play evs b).lines.enx = true := by
  induction evs with
  | nil => intro b hb; exact hb
  | cons e evs ih =>
    intro b hb
    rw [play_cons]
    apply ih (fun hm => h (List.mem_cons_of_mem _ hm))
    have he : e ≠ Event.drive Line.enx false := fun heq => h (heq ▸ List.mem_cons_self _ _)
    cases e with
    | pinmux l => exact hb
    | sample v => exact hb
    | delay => exact hb
    | dir l o => cases l <;> exact hb
    | drive l o =>
      cases l
      · exact hb
      · exact hb
      · cases o
        · exact absurd rfl he
        · rfl
      · exact hb

theorem sdata_out_restored (xs : List Event) (b : Bus) :
    (play (xs ++ [Event.delay, Event.drive Line.enx true, Event.dir Line.sdata true] ++ pulse)
      b).lines.sdata_out = true := by
  rw [play_append, play_append]
  rfl

/-- C4: in a 2-word read transfer (bit 7 of the command set) the data line is
switched to input exactly once; nine levels have been driven and nine read
before the switch, all sixteen data levels are driven and read after it, and the
line is switched back to output before the call returns. -/
theorem read_switches_to_input_between_phases (pin : Pin) (b : Bus) (c d : Nat)
    (rest : List Nat) (h : c.testBit 7 = true) :
    ∃ pre post ws,
      rffc5071_spi_transfer pin b (c :: d :: rest) 2 =
        some (play (pre ++ Event.dir Line.sdata false :: post) b, ws) ∧
      Event.dir Line.sdata false ∉ pre ∧ Event.dir Line.sdata false ∉ post ∧
      (drivenOf pre).length = 9 ∧ (samplesOf pre).length = 9 ∧
      (drivenOf post).length = 16 ∧ (samplesOf post).length = 16 ∧
      Event.dir Line.sdata true ∈ post ∧
      (play (pre ++ Event.dir Line.sdata false :: post) b).lines.sdata_out = true := by
  have hc := cmdSamples_length pin b c
  have hd := dataSamples_length pin b c d
  have hvc : (bitsMSB c 9).length = (cmdSamples pin b c).length := by rw [bitsMSB_length, hc]
  have hvd : (bitsMSB d 16).length = (dataSamples pin b c d).length := by
    rw [bitsMSB_length, hd]
  have hsplit : transferEvents (c.testBit 7) (bitsMSB c 9) (cmdSamples pin b c) (bitsMSB d 16)
      (dataSamples pin b c d) =
      (pulse ++ pulse ++ [Event.drive Line.enx false] ++
          wordEvents (bitsMSB c 9) (cmdSamples pin b c)) ++
        Event.dir Line.sdata false ::
          (pulse ++ wordEvents (bitsMSB d 16) (dataSamples pin b c d) ++
            [Event.delay, Event.drive Line.enx true, Event.dir Line.sdata true] ++ pulse) := by
    simp only [transferEvents, h, if_true, List.append_assoc, List.cons_append]
  refine ⟨_, _, _, (transfer_eq pin b c d rest).trans (by rw [hsplit]), ?_, ?_, ?_, ?_, ?_, ?_,
    ?_, ?_⟩
  · simp [dir_not_mem_pulse, dir_not_mem_wordEvents]
  · simp [dir_not_mem_pulse, dir_not_mem_wordEvents]
  · have hp : drivenOf pulse = [] := rfl
    have he : drivenOf [Event.drive Line.enx false] = [] := rfl
    rw [drivenOf_append, drivenOf_append, drivenOf_append, hp, he, drivenOf_wordEvents _ _ hvc]
    simp [bitsMSB_length]
  · have hp : samplesOf pulse = [] := rfl
    have he : samplesOf [Event.drive Line.enx false] = [] := rfl
    rw [samplesOf_append, samplesOf_append, samplesOf_append, hp, he,
      samplesOf_wordEvents _ _ hvc]
    simpa using hc
  · have hp : drivenOf pulse = [] := rfl
    have he : drivenOf [Event.delay, Event.drive Line.enx true, Event.dir Line.sdata true] =
        [] := rfl
    rw [drivenOf_append, drivenOf_append, drivenOf_append, hp, he, drivenOf_wordEvents _ _ hvd]
    simp [bitsMSB_length]
  · have hp : samplesOf pulse = [] := rfl
    have he : samplesOf [Event.delay, Event.drive Line.enx true, Event.dir Line.sdata true] =
        [] := rfl
    rw [samplesOf_append, samplesOf_append, samplesOf_append, hp, he,
      samplesOf_wordEvents _ _ hvd]
    simpa using hd
  · simp
  · rw [← hsplit]
    exact sdata_out_restored _ b

theorem read_switches_to_input_between_phases_witness :
    (0x85 : Nat).testBit 7 = true ∧
    ∃ pre post ws,
      rffc5071_spi_transfer chipBEEF idleBus [0x85, 0] 2 =
        some (play (pre ++ Event.dir Line.sdata false :: post) idleBus, ws) ∧
      Event.dir Line.sdata false ∉ pre ∧ Event.dir Line.sdata false ∉ post ∧
      (drivenOf pre).length = 9 ∧ (samplesOf pre).length = 9 ∧
      (drivenOf post).length = 16 ∧ (samplesOf post).length = 16 ∧
      Event.dir Line.sdata true ∈ post ∧
      (play (pre ++ Event.dir Line.sdata false :: post) idleBus).lines.sdata_out = true :=
  ⟨by decide, read_switches_to_input_between_phases chipBEEF idleBus 0x85 0 [] (by decide)⟩


theorem dir_in_not_mem_write (v1 s1 v2 s2 : List Bool) :
    Event.dir Line.sdata false ∉ transferEvents false v1 s1 v2 s2 := by
  simp [transferEvents, dir_not_mem_pulse, dir_not_mem_wordEvents]

/-- C5: in a 2-word write transfer (bit 7 of the command clear) no access
switches the data line to input, whatever the chip answers; if the data line is
an output on entry, it is an output after every access of the call. -/
theorem write_never_switches_to_input (pin : Pin) (b : Bus) (c d : Nat) (rest : List Nat)
    (h : c.testBit 7 = false) :
    ∃ evs ws,
      rffc5071_spi_transfer pin b (c :: d :: rest) 2 = some (play evs b, ws) ∧
      Event.dir Line.sdata false ∉ evs ∧
      (b.lines.sdata_out = true → ∀ p, p <+: evs → (play p b).lines.sdata_out = true) := by
  refine ⟨_, _, transfer_eq pin b c d rest, ?_, ?_⟩
  · rw [h]; exact dir_in_not_mem_write _ _ _ _
  · intro hb p hp
    apply sdata_out_stays p _ b hb
    intro hm
    have hm2 := hp.subset hm
    rw [h] at hm2
    exact dir_in_not_mem_write _ _ _ _ hm2

theorem write_never_switches_to_input_witness :
    (0x05 : Nat).testBit 7 = false ∧
    ∃ evs ws,
      rffc5071_spi_transfer chipBEEF idleBus [0x05, 0x1234] 2 = some (play evs idleBus, ws) ∧
      Event.dir Line.sdata false ∉ evs ∧
      (idleBus.lines.sdata_out = true →
        ∀ p, p <+: evs → (play p idleBus).lines.sdata_out = true) :=
  ⟨by decide, write_never_switches_to_input chipBEEF idleBus 0x05 0x1234 [] (by decide)⟩

theorem clockOf_transferEvents (r : Bool) (v1 s1 v2 s2 : List Bool)
    (h1 : v1.length = s1.length) (h2 : v2.length = s2.length) :
    clockOf (transferEvents r v1 s1 v2 s2) =
      clockPulses (2 + s1.length + (if r then 1 else 0) + s2.length + 1) := by
  have hp : clockOf pulse = clockPulses 1 := rfl
  have hr : clockOf (if r = true then Event.dir Line.sdata false :: pulse else []) =
      clockPulses (if r then 1 else 0) := by
    cases r <;> rfl
  have ht : clockOf [Event.delay, Event.drive Line.enx true, Event.dir Line.sdata true] =
      clockPulses 0 := rfl
  have hs : clockOf [Event.drive Line.enx false] = clockPulses 0 := rfl
  simp only [transferEvents, clockOf_append, hp, hr, ht, hs, clockOf_wordEvents _ _ h1,
    clockOf_wordEvents _ _ h2, ← clockPulses_add]

/-- C6: the read/write decision of a 2-word transfer is bit 7 of the command
word as supplied, which is the second level driven on the data line: the switch
of the data line to input happens, and the transfer has 29 instead of 28 clock
pulses, exactly when that bit is 1, whatever command echo is read back into
word 0. -/
theorem direction_decided_by_supplied_bit7 (pin : Pin) (b : Bus) (c d : Nat)
    (rest : List Nat) :
    ∃ evs w0 ws,
      rffc5071_spi_transfer pin b (c :: d :: rest) 2 = some (play evs b, w0 :: ws) ∧
      (drivenOf evs)[1]? = some (c.testBit 7) ∧
      (Event.dir Line.sdata false ∈ evs ↔ c.testBit 7 = true) ∧
      clockOf evs = clockPulses (if c.testBit 7 then 29 else 28) ∧
      w0 = ofBitsMSB ((samplesOf evs).take 9) := by
  have hc := cmdSamples_length pin b c
  have hd := dataSamples_length pin b c d
  have hvc : (bitsMSB c 9).length = (cmdSamples pin b c).length := by rw [bitsMSB_length, hc]
  have hvd : (bitsMSB d 16).length = (dataSamples pin b c d).length := by
    rw [bitsMSB_length, hd]
  refine ⟨_, _, _, transfer_eq pin b c d rest, ?_, ?_, ?_, ?_⟩
  · rw [drivenOf_transferEvents _ _ _ _ _ hvc hvd]
    rfl
  · constructor
    · intro hm
      cases hb : c.testBit 7
      · rw [hb] at hm
        exact absurd hm (dir_in_not_mem_write _ _ _ _)
      · rfl
    · intro hb
      simp [transferEvents, hb]
  · rw [clockOf_transferEvents _ _ _ _ _ hvc hvd, hc, hd]
    cases c.testBit 7 <;> rfl
  · rw [samplesOf_transferEvents _ _ _ _ _ hvc hvd, List.take_left' hc]


theorem wordEvents_ends_with_sample (vs : List Bool) :
    ∀ ss : List Bool, vs.length = ss.length → ss ≠ [] →
      ∃ p s, wordEvents vs ss = p ++ [Event.sample s] := by
  induction vs with
  | nil => intro ss h hne; cases ss with
    | nil => exact absurd rfl hne
    | cons s ss => simp at h
  | cons v vs ih => intro ss h _; cases ss with
    | nil => simp at h
    | cons s ss =>
      have h2 : vs.length = ss.length := by simpa using h
      by_cases hss : ss = []
      · subst hss
        have hvs : vs = [] := List.length_eq_zero.mp h2
        subst hvs
        exact ⟨Event.drive Line.sdata v :: pulse, s, rfl⟩
      · obtain ⟨p, s0, hp⟩ := ih ss h2 hss
        refine ⟨(Event.drive Line.sdata v :: pulse) ++ Event.sample s :: p, s0, ?_⟩
        simp only [wordEvents, hp, List.append_assoc, List.cons_append]

/-- C7: between the end of the 9-bit command exchange (the 9th read of the data
line) and the deselection of the target there are exactly 17 clock pulses in a
read and 16 in a write; the whole 2-word transfer has exactly 29 clock pulses in
a read and 28 in a write, for all words and all chip answers. -/
theorem read_has_one_extra_clock_pulse (pin : Pin) (b : Bus) (c d : Nat) (rest : List Nat) :
    ∃ pre mid post ws,
      rffc5071_spi_transfer pin b (c :: d :: rest) 2 =
        some (play (pre ++ mid ++ Event.drive Line.enx true :: post) b, ws) ∧
      (samplesOf pre).length = 9 ∧ (∃ p s, pre = p ++ [Event.sample s]) ∧
      Event.drive Line.enx true ∉ pre ++ mid ∧
      clockOf mid = clockPulses (if c.testBit 7 then 17 else 16) ∧
      clockOf (pre ++ mid ++ Event.drive Line.enx true :: post) =
        clockPulses (if c.testBit 7 then 29 else 28) := by
  have hc := cmdSamples_length pin b c
  have hd := dataSamples_length pin b c d
  have hvc : (bitsMSB c 9).length = (cmdSamples pin b c).length := by rw [bitsMSB_length, hc]
  have hvd : (bitsMSB d 16).length = (dataSamples pin b c d).length := by
    rw [bitsMSB_length, hd]
  have hsplit : transferEvents (c.testBit 7) (bitsMSB c 9) (cmdSamples pin b c) (bitsMSB d 16)
      (dataSamples pin b c d) =
      (pulse ++ pulse ++ [Event.drive Line.enx false] ++
          wordEvents (bitsMSB c 9) (cmdSamples pin b c)) ++
        ((if c.testBit 7 then Event.dir Line.sdata false :: pulse else []) ++
          wordEvents (bitsMSB d 16) (dataSamples pin b c d) ++ [Event.delay]) ++
        Event.drive Line.enx true :: (Event.dir Line.sdata true :: pulse) := by
    simp only [transferEvents, List.append_assoc, List.cons_append, List.nil_append]
  refine ⟨_, _, _, _, (transfer_eq pin b c d rest).trans (by rw [hsplit]), ?_, ?_, ?_, ?_, ?_⟩
  · have hp : samplesOf pulse = [] := rfl
    have he : samplesOf [Event.drive Line.enx false] = [] := rfl
    rw [samplesOf_append, samplesOf_append, samplesOf_append, hp, he,
      samplesOf_wordEvents _ _ hvc]
    simpa using hc
  · obtain ⟨p, s0, hp⟩ := wordEvents_ends_with_sample (bitsMSB c 9) (cmdSamples pin b c) hvc
      (by intro h0; rw [h0] at hc; simp at hc)
    exact ⟨pulse ++ pulse ++ [Event.drive Line.enx false] ++ p, s0, by
      rw [hp]; simp only [List.append_assoc]⟩
  · have hif : Event.drive Line.enx true ∉
        (if c.testBit 7 = true then Event.dir Line.sdata false :: pulse else []) := by
      cases c.testBit 7 <;> simp [enx_not_mem_pulse]
    simp [enx_not_mem_pulse, enx_not_mem_wordEvents, hif]
  · have hr : clockOf (if c.testBit 7 = true then Event.dir Line.sdata false :: pulse else []) =
        clockPulses (if c.testBit 7 then 1 else 0) := by
      cases c.testBit 7 <;> rfl
    have ht : clockOf [Event.delay] = clockPulses 0 := rfl
    rw [clockOf_append, clockOf_append, hr, ht, clockOf_wordEvents _ _ hvd, hd,
      ← clockPulses_add, ← clockPulses_add]
    cases c.testBit 7 <;> rfl
  · rw [← hsplit, clockOf_transferEvents _ _ _ _ _ hvc hvd, hc, hd]
    cases c.testBit 7 <;> rfl

theorem enx_after_unselect (pre mid p : List Event) (b : Bus)
    (hp : Event.drive Line.enx false ∉ p) :
    (play (pre ++ Event.drive Line.enx false :: (mid ++ Event.drive Line.enx true :: p))
      b).lines.enx = true := by
  have e : pre ++ Event.drive Line.enx false :: (mid ++ Event.drive Line.enx true :: p) =
      (pre ++ Event.drive Line.enx false :: mid) ++ Event.drive Line.enx true :: p := by
    simp
  rw [e, play_append, play_cons]
  exact enx_stays p hp _ rfl

/-- C8: in a 2-word transfer started with the enable line inactive (high), the
enable line is driven active exactly once and inactive exactly once; exactly two
complete clock pulses precede the selection and exactly one complete clock pulse
(after the data line is returned to output) follows the deselection, and the
enable line is high throughout those three pulses. -/
theorem enable_framed_by_idle_clock_pulses (pin : Pin) (b : Bus) (c d : Nat)
    (rest : List Nat) (h : b.lines.enx = true) :
    ∃ pre mid post ws,
      rffc5071_spi_transfer pin b (c :: d :: rest) 2 =
        some (play (pre ++ Event.drive Line.enx false :: (mid ++
          Event.drive Line.enx true :: post)) b, ws) ∧
      (∀ v, Event.drive Line.enx v ∉ pre) ∧ (∀ v, Event.drive Line.enx v ∉ mid) ∧
      (∀ v, Event.drive Line.enx v ∉ post) ∧
      pre = pulse ++ pulse ∧ clockOf pre = clockPulses 2 ∧
      post = Event.dir Line.sdata true :: pulse ∧ clockOf post = clockPulses 1 ∧
      (∀ p, p <+: pre → (play p b).lines.enx = true) ∧
      (∀ p, p <+: post → (play (pre ++ Event.drive Line.enx false :: (mid ++
          Event.drive Line.enx true :: p)) b).lines.enx = true) := by
  have hsplit : transferEvents (c.testBit 7) (bitsMSB c 9) (cmdSamples pin b c) (bitsMSB d 16)
      (dataSamples pin b c d) =
      (pulse ++ pulse) ++ Event.drive Line.enx false ::
        ((wordEvents (bitsMSB c 9) (cmdSamples pin b c) ++
          (if c.testBit 7 then Event.dir Line.sdata false :: pulse else []) ++
          wordEvents (bitsMSB d 16) (dataSamples pin b c d) ++ [Event.delay]) ++
        Event.drive Line.enx true :: (Event.dir Line.sdata true :: pulse)) := by
    simp only [transferEvents, List.append_assoc, List.cons_append, List.nil_append]
  refine ⟨_, _, _, _, (transfer_eq pin b c d rest).trans (by rw [hsplit]), ?_, ?_, ?_, rfl, rfl,
    rfl, rfl, ?_, ?_⟩
  · intro v; simp [enx_not_mem_pulse]
  · intro v
    have hif : Event.drive Line.enx v ∉
        (if c.testBit 7 = true then Event.dir Line.sdata false :: pulse else []) := by
      cases c.testBit 7 <;> simp [enx_not_mem_pulse]
    simp [enx_not_mem_wordEvents, hif]
  · intro v; simp [enx_not_mem_pulse]
  · intro p hp
    apply enx_stays p _ b h
    intro hm
    have hm2 := hp.subset hm
    simp [enx_not_mem_pulse] at hm2
  · intro p hp
    apply enx_after_unselect
    intro hm
    have hm2 := hp.subset hm
    simp [enx_not_mem_pulse] at hm2

theorem enable_framed_by_idle_clock_pulses_witness :
    idleBus.lines.enx = true ∧
    ∃ pre mid post ws,
      rffc5071_spi_transfer chipBEEF idleBus [0x85, 0] 2 =
        some (play (pre ++ Event.drive Line.enx false :: (mid ++
          Event.drive Line.enx true :: post)) idleBus, ws) ∧
      (∀ v, Event.drive Line.enx v ∉ pre) ∧ (∀ v, Event.drive Line.enx v ∉ mid) ∧
      (∀ v, Event.drive Line.enx v ∉ post) ∧
      pre = pulse ++ pulse ∧ clockOf pre = clockPulses 2 ∧
      post = Event.dir Line.sdata true :: pulse ∧ clockOf post = clockPulses 1 ∧
      (∀ p, p <+: pre → (play p idleBus).lines.enx = true) ∧
      (∀ p, p <+: post → (play (pre ++ Event.drive Line.enx false :: (mid ++
          Event.drive Line.enx true :: p)) idleBus).lines.enx = true) :=
  ⟨rfl, enable_framed_by_idle_clock_pulses chipBEEF idleBus 0x85 0 [] rfl⟩


/-- C9: for every word count other than 2, `rffc5071_spi_transfer` is a no-op:
it returns the bus as it received it (same levels and directions of all four
lines, nothing added to the log: no clock write, delay or read) and the
caller's words unchanged. -/
theorem transfer_other_count_is_noop (pin : Pin) (b : Bus) (data : List Nat) (count : Nat)
    (h : count ≠ 2) :
    rffc5071_spi_transfer pin b data count = some (b, data) := by
  simp [rffc5071_spi_transfer, h]

theorem transfer_other_count_is_noop_witness :
    (3 : Nat) ≠ 2 ∧
    rffc5071_spi_transfer chipBEEF idleBus [0x85, 0x1234, 7] 3 =
      some (idleBus, [0x85, 0x1234, 7]) :=
  ⟨by decide, transfer_other_count_is_noop chipBEEF idleBus [0x85, 0x1234, 7] 3 (by decide)⟩

/-- C10: `rffc5071_spi_transfer_gather` called with one segment does to the bus
and to the words of that segment what `rffc5071_spi_transfer` does when called
with the data and word count of the segment, so it is a no-op when that word
count is not 2; called with any other number of segments it changes neither the
bus nor any word. -/
theorem transfer_gather_dispatches_single_segment (pin : Pin) (b : Bus)
    (seg : spi_transfer_t) (rest segs : List spi_transfer_t) (count : Nat) :
    rffc5071_spi_transfer_gather pin b (seg :: rest) 1 =
        (rffc5071_spi_transfer pin b seg.data seg.count).map
          (fun r => (r.1, { seg with data := r.2 } :: rest)) ∧
    (seg.count ≠ 2 → rffc5071_spi_transfer_gather pin b (seg :: rest) 1 =
        some (b, seg :: rest)) ∧
    (count ≠ 1 → rffc5071_spi_transfer_gather pin b segs count = some (b, segs)) := by
  have hmain : rffc5071_spi_transfer_gather pin b (seg :: rest) 1 =
      (rffc5071_spi_transfer pin b seg.data seg.count).map
        (fun r => (r.1, { seg with data := r.2 } :: rest)) := by
    simp only [rffc5071_spi_transfer_gather, if_true]
    cases rffc5071_spi_transfer pin b seg.data seg.count with
    | none => rfl
    | some r => rfl
  refine ⟨hmain, ?_, ?_⟩
  · intro h
    rw [hmain]
    simp [rffc5071_spi_transfer, h]
  · intro h
    simp [rffc5071_spi_transfer_gather, h]

theorem transfer_gather_dispatches_single_segment_witness :
    rffc5071_spi_transfer_gather loopback idleBus [⟨[0x05, 0x1234], 2⟩] 1 =
        (rffc5071_spi_transfer loopback idleBus [0x05, 0x1234] 2).map
          (fun r => (r.1, [⟨r.2, 2⟩])) ∧
    rffc5071_spi_transfer_gather loopback idleBus [⟨[0x05, 0x1234], 3⟩] 1 =
        some (idleBus, [⟨[0x05, 0x1234], 3⟩]) ∧
    rffc5071_spi_transfer_gather loopback idleBus [⟨[0x05, 0x1234], 2⟩, ⟨[1, 2], 2⟩] 2 =
        some (idleBus, [⟨[0x05, 0x1234], 2⟩, ⟨[1, 2], 2⟩]) ∧
    rffc5071_spi_transfer_gather loopback idleBus [] 0 = some (idleBus, []) :=
  ⟨(transfer_gather_dispatches_single_segment loopback idleBus ⟨[0x05, 0x1234], 2⟩ [] [] 0).1,
    (transfer_gather_dispatches_single_segment loopback idleBus ⟨[0x05, 0x1234], 3⟩ [] [] 0).2.1
      (by decide),
    (transfer_gather_dispatches_single_segment loopback idleBus ⟨[0x05, 0x1234], 2⟩ []
      [⟨[0x05, 0x1234], 2⟩, ⟨[1, 2], 2⟩] 2).2.2 (by decide),
    (transfer_gather_dispatches_single_segment loopback idleBus ⟨[0x05, 0x1234], 2⟩ [] [] 0).2.2
      (by decide)⟩

/-! ## Initialisation and the bit exchange -/

/-- C11: from any starting state of the lines, after `rffc5071_spi_init` the
enable line is high (inactive), the reset line is high (inactive), the clock and
data lines are low, and all four lines are configured as outputs. -/
theorem init_leaves_bus_idle (b : Bus) :
    (rffc5071_spi_init b).lines =
      { sclk := false, sdata := false, enx := true, resetx := true,
        sclk_out := true, sdata_out := true, enx_out := true, resetx_out := true } ∧
    (rffc5071_spi_init b).log = b.log ++
      [Event.pinmux Line.sclk, Event.pinmux Line.sdata, Event.dir Line.sclk true,
        Event.dir Line.sdata true, Event.drive Line.sclk false, Event.drive Line.sdata false,
        Event.pinmux Line.enx, Event.pinmux Line.resetx, Event.dir Line.enx true,
        Event.dir Line.resetx true, Event.drive Line.enx true, Event.drive Line.resetx true] := by
  constructor
  · rfl
  · simp [rffc5071_spi_init, rffc5071_spi_target_init, rffc5071_spi_bus_init,
      rffc5071_spi_target_unselect, rffc5071_spi_direction_out, gpio_set, gpio_clear,
      scu_pinmux, emit]

/-- C12: one bit exchange of the value `bit` performs, in this order: the drive
of the data line to the level of `bit`, a delay, the clock write high, a delay,
the clock write low, the read of the data line. The data line is driven while the
clock still has its level of entry, the clock is low when the data line is read,
and the result is 1 if the level read is high and 0 otherwise. -/
theorem exchange_bit_sequence (pin : Pin) (bit : Nat) (b : Bus) :
    ∃ s : Bool,
      rffc5071_spi_exchange_bit pin bit b =
        (if s then 1 else 0,
          play [Event.drive Line.sdata (decide (bit ≠ 0)), Event.delay,
            Event.drive Line.sclk true, Event.delay, Event.drive Line.sclk false,
            Event.sample s] b) ∧
      s = pin (play [Event.drive Line.sdata (decide (bit ≠ 0)), Event.delay,
            Event.drive Line.sclk true, Event.delay, Event.drive Line.sclk false] b) ∧
      (play [Event.drive Line.sdata (decide (bit ≠ 0))] b).lines.sclk = b.lines.sclk ∧
      (play [Event.drive Line.sdata (decide (bit ≠ 0))] b).lines.sdata = decide (bit ≠ 0) ∧
      (play [Event.drive Line.sdata (decide (bit ≠ 0)), Event.delay,
            Event.drive Line.sclk true] b).lines.sclk = true ∧
      (play [Event.drive Line.sdata (decide (bit ≠ 0)), Event.delay,
            Event.drive Line.sclk true, Event.delay, Event.drive Line.sclk false]
          b).lines.sclk = false := by
  refine ⟨pin (play (Event.drive Line.sdata (decide (bit ≠ 0)) :: pulse) b), ?_, rfl, rfl, rfl,
    rfl, rfl⟩
  rw [exchange_bit_eq]
  cases pin (play (Event.drive Line.sdata (decide (bit ≠ 0)) :: pulse) b) <;> rfl

/-- C13 fails as stated: on the idle bus a clock pulse is not the sequence clock
high, delay, clock low, delay, and in the exchange of a 1 bit no delay lies
between the clock write low and the read of the data line. -/
theorem delay_after_falling_edge_counterexample :
    rffc5071_spi_sck idleBus ≠
      play [Event.drive Line.sclk true, Event.delay, Event.drive Line.sclk false, Event.delay]
        idleBus ∧
    ¬ ∃ pre mid post s,
      (rffc5071_spi_exchange_bit loopback 1 idleBus).2.log =
        pre ++ Event.drive Line.sclk false :: (mid ++ Event.sample s :: post) ∧
      Event.delay ∈ mid := by
  constructor
  · decide
  · rintro ⟨pre, mid, post, s, h, hm⟩
    have hL : (rffc5071_spi_exchange_bit loopback 1 idleBus).2.log =
        [Event.drive Line.sdata true, Event.delay, Event.drive Line.sclk true, Event.delay,
          Event.drive Line.sclk false, Event.sample true] := by decide
    rw [hL] at h
    simp [List.cons_eq_append_iff] at h
    obtain ⟨_, _, _, _, _, _, _, _, _, hmid⟩ := h
    cases mid with
    | nil => simp at hm
    | cons e m => simp at hmid

/-- C13 as amended: a clock pulse is the sequence delay, clock high, delay,
clock low, and in every bit exchange the read of the data line is the access
right after the clock write low: each clock edge is preceded, not followed, by
one delay, and no delay separates the falling edge from the read. -/
theorem sample_follows_falling_edge_at_once (pin : Pin) (bit : Nat) (b : Bus) :
    rffc5071_spi_sck b =
      play [Event.delay, Event.drive Line.sclk true, Event.delay, Event.drive Line.sclk false]
        b ∧
    ∃ pre s,
      (rffc5071_spi_exchange_bit pin bit b).2 =
        play (pre ++ [Event.drive Line.sclk false, Event.sample s]) b ∧
      Event.drive Line.sclk false ∉ pre ∧ (∀ v, Event.sample v ∉ pre) ∧
      (samplesOf (pre ++ [Event.drive Line.sclk false, Event.sample s])).length = 1 := by
  refine ⟨rfl, [Event.drive Line.sdata (decide (bit ≠ 0)), Event.delay,
    Event.drive Line.sclk true, Event.delay],
    pin (play (Event.drive Line.sdata (decide (bit ≠ 0)) :: pulse) b), ?_, ?_, ?_, ?_⟩
  · rw [exchange_bit_eq]
    rfl
  · simp
  · intro v; simp
  · rfl

/-! ## The word exchange for every width -/

theorem bitsFrom_eq_map (t n : Nat) :
    ∀ k, bitsFrom t k n = (List.range n).map (fun i => t.testBit (k - i)) := by
  induction n with
  | zero => intro k; rfl
  | succ n ih =>
    intro k
    rw [bitsFrom, ih (k - 1), List.range_succ_eq_map, List.map_cons, List.map_map]
    congr 1
    apply List.map_congr_left
    intro i _
    simp only [Function.comp, Nat.sub_sub, Nat.add_comm 1 i, Nat.succ_eq_add_one]

/-- C14: for every width `n` from 1 to 31, every value and every pin, the word
exchange performs exactly `n` bit exchanges, the `i`-th of which drives bit
`n-1-i` of the value, and returns the `n` levels read, assembled most
significant first: a number below `2^n` built from the levels read alone, also
when the value has bits set at positions `n` and above. -/
theorem exchange_word_any_width (pin : Pin) (value n : Nat) (b : Bus)
    (h1 : 1 ≤ n) (h31 : n ≤ 31) :
    ∃ ss evs,
      rffc5071_spi_exchange_word pin value n b = (ofBitsMSB ss, play evs b) ∧
      evs = wordEvents ((List.range n).map (fun i => value.testBit (n - 1 - i))) ss ∧
      ss.length = n ∧
      drivenOf evs = (List.range n).map (fun i => value.testBit (n - 1 - i)) ∧
      samplesOf evs = ss ∧
      clockOf evs = clockPulses n ∧
      ofBitsMSB ss < 2 ^ n ∧
      (rffc5071_spi_exchange_word pin (value % 2 ^ n) n b).2 = play evs b := by
  have hn : 1 ≤ n := h1
  have hbits : bitsMSB value n = (List.range n).map (fun i => value.testBit (n - 1 - i)) :=
    bitsFrom_eq_map value n (n - 1)
  have hlen : (wordRun pin (bitsMSB value n) b).1.length = n := by
    rw [wordRun_length, bitsMSB_length]
  have hvl : (bitsMSB value n).length = (wordRun pin (bitsMSB value n) b).1.length := by
    rw [hlen, bitsMSB_length]
  have hmod : bitsMSB (value % 2 ^ n) n = bitsMSB value n :=
    bitsFrom_mod_two_pow value n n (n - 1) (by omega)
  refine ⟨(wordRun pin (bitsMSB value n) b).1, _, ?_, rfl, hlen, ?_, ?_, ?_, ?_, ?_⟩
  · rw [exchange_word_eq pin value n b h31, wordRun_bus, hbits]
  · rw [← hbits, drivenOf_wordEvents _ _ hvl]
  · rw [← hbits, samplesOf_wordEvents _ _ hvl]
  · rw [← hbits, clockOf_wordEvents _ _ hvl, hlen]
  · have h := ofBitsMSB_lt (wordRun pin (bitsMSB value n) b).1
    rw [hlen] at h
    exact h
  · rw [exchange_word_eq pin _ n b h31, hmod, wordRun_bus, hbits]

theorem exchange_word_any_width_witness :
    1 ≤ 5 ∧ 5 ≤ 31 ∧
    ∃ ss evs,
      rffc5071_spi_exchange_word loopback 0xFFFFFFF3 5 idleBus = (ofBitsMSB ss, play evs idleBus) ∧
      evs = wordEvents ((List.range 5).map (fun i => (0xFFFFFFF3 : Nat).testBit (5 - 1 - i))) ss ∧
      ss.length = 5 ∧
      drivenOf evs = (List.range 5).map (fun i => (0xFFFFFFF3 : Nat).testBit (5 - 1 - i)) ∧
      samplesOf evs = ss ∧
      clockOf evs = clockPulses 5 ∧
      ofBitsMSB ss < 2 ^ 5 ∧
      (rffc5071_spi_exchange_word loopback (0xFFFFFFF3 % 2 ^ 5) 5 idleBus).2 = play evs idleBus :=
  ⟨by decide, by decide,
    exchange_word_any_width loopback 0xFFFFFFF3 5 idleBus (by decide) (by decide)⟩

/-! ## The bus between transactions -/

theorem spared_by_play (evs : List Event) (h : ∀ e ∈ evs, sparesResetAndDirections e = true) :
    ∀ b : Bus, (play evs b).lines.resetx = b.lines.resetx ∧
      (play evs b).lines.sclk_out = b.lines.sclk_out ∧
      (play evs b).lines.enx_out = b.lines.enx_out ∧
      (play evs b).lines.resetx_out = b.lines.resetx_out := by
  induction evs with
  | nil => intro b; exact ⟨rfl, rfl, rfl, rfl⟩
  | cons e evs ih =>
    intro b
    rw [play_cons]
    have hrest := ih (fun x hx => h x (List.mem_cons_of_mem _ hx)) (emit e b)
    have he := h e (List.mem_cons_self _ _)
    have hstep : (emit e b).lines.resetx = b.lines.resetx ∧
        (emit e b).lines.sclk_out = b.lines.sclk_out ∧
        (emit e b).lines.enx_out = b.lines.enx_out ∧
        (emit e b).lines.resetx_out = b.lines.resetx_out := by
      cases e with
      | pinmux l => exact ⟨rfl, rfl, rfl, rfl⟩
      | sample v => exact ⟨rfl, rfl, rfl, rfl⟩
      | delay => exact ⟨rfl, rfl, rfl, rfl⟩
      | drive l v =>
        cases l
        · exact ⟨rfl, rfl, rfl, rfl⟩
        · exact ⟨rfl, rfl, rfl, rfl⟩
        · exact ⟨rfl, rfl, rfl, rfl⟩
        · simp [sparesResetAndDirections] at he
      | dir l o =>
        cases l
        · simp [sparesResetAndDirections] at he
        · exact ⟨rfl, rfl, rfl, rfl⟩
        · simp [sparesResetAndDirections] at he
        · simp [sparesResetAndDirections] at he
    rw [hrest.1, hrest.2.1, hrest.2.2.1, hrest.2.2.2]
    exact hstep

theorem spares_wordEvents (vs ss : List Bool) :
    ∀ e ∈ wordEvents vs ss, sparesResetAndDirections e = true := by
  intro e h
  rcases mem_wordEvents _ vs ss h with ⟨v, hv⟩ | hp | ⟨s, hs⟩
  · rw [hv]; rfl
  · simp only [pulse, List.mem_cons, List.mem_singleton, List.mem_nil_iff, or_false] at hp
    rcases hp with hp | hp | hp | hp <;> rw [hp] <;> rfl
  · rw [hs]; rfl

theorem spares_pulse : ∀ e ∈ pulse, sparesResetAndDirections e = true := by
  decide

theorem spares_transferEvents (r : Bool) (v1 s1 v2 s2 : List Bool) :
    ∀ e ∈ transferEvents r v1 s1 v2 s2, sparesResetAndDirections e = true := by
  intro e h
  simp only [transferEvents, List.mem_append] at h
  rcases h with ((((((h | h) | h) | h) | h) | h) | h) | h
  · exact spares_pulse e h
  · exact spares_pulse e h
  · simp only [List.mem_singleton] at h; rw [h]; rfl
  · exact spares_wordEvents _ _ e h
  · cases r
    · simp at h
    · simp only [if_true, List.mem_cons] at h
      rcases h with h | h
      · rw [h]; rfl
      · exact spares_pulse e h
  · exact spares_wordEvents _ _ e h
  · simp only [List.mem_cons, List.mem_singleton, List.mem_nil_iff, or_false] at h
    rcases h with h | h | h <;> rw [h] <;> rfl
  · exact spares_pulse e h

theorem transfer_final_lines (r : Bool) (v1 s1 v2 s2 : List Bool) (b : Bus) :
    (play (transferEvents r v1 s1 v2 s2) b).lines.enx = true ∧
    (play (transferEvents r v1 s1 v2 s2) b).lines.sclk = false ∧
    (play (transferEvents r v1 s1 v2 s2) b).lines.sdata_out = true ∧
    (play (transferEvents r v1 s1 v2 s2) b).lines.resetx = b.lines.resetx ∧
    (play (transferEvents r v1 s1 v2 s2) b).lines.sclk_out = b.lines.sclk_out ∧
    (play (transferEvents r v1 s1 v2 s2) b).lines.enx_out = b.lines.enx_out ∧
    (play (transferEvents r v1 s1 v2 s2) b).lines.resetx_out = b.lines.resetx_out := by
  have hs := spared_by_play _ (spares_transferEvents r v1 s1 v2 s2) b
  refine ⟨?_, ?_, ?_, hs.1, hs.2.1, hs.2.2.1, hs.2.2.2⟩
  · simp only [transferEvents, play_append]; rfl
  · simp only [transferEvents, play_append]; rfl
  · simp only [transferEvents, play_append]; rfl

theorem transfer_keeps_idle (pin : Pin) (b : Bus) (data : List Nat) (count : Nat)
    (r : Bus × List Nat) (h : rffc5071_spi_transfer pin b data count = some r)
    (hb : Idle b.lines) : Idle r.1.lines := by
  by_cases hc : count = 2
  · subst hc
    cases data with
    | nil => exact absurd h (by simp [rffc5071_spi_transfer])
    | cons c t =>
      cases t with
      | nil => exact absurd h (by simp [rffc5071_spi_transfer])
      | cons d rest =>
        rw [transfer_eq] at h
        have hr := congrArg Prod.fst (Option.some.inj h)
        have hf := transfer_final_lines (c.testBit 7) (bitsMSB c 9) (cmdSamples pin b c)
          (bitsMSB d 16) (dataSamples pin b c d) b
        rw [← hr]
        exact ⟨hf.1, hf.2.2.2.1.trans hb.2.1, hf.2.1, hf.2.2.1⟩
  · have h2 : rffc5071_spi_transfer pin b data count = some (b, data) := by
      simp [rffc5071_spi_transfer, hc]
    rw [h2] at h
    have hr := congrArg Prod.fst (Option.some.inj h)
    rw [← hr]
    exact hb

theorem transfer_gather_keeps_idle (pin : Pin) (b : Bus) (segs : List spi_transfer_t)
    (count : Nat) (r : Bus × List spi_transfer_t)
    (h : rffc5071_spi_transfer_gather pin b segs count = some r) (hb : Idle b.lines) :
    Idle r.1.lines := by
  by_cases hc : count = 1
  · subst hc
    cases segs with
    | nil => exact absurd h (by simp [rffc5071_spi_transfer_gather])
    | cons seg rest =>
      simp only [rffc5071_spi_transfer_gather, if_true] at h
      cases ht : rffc5071_spi_transfer pin b seg.data seg.count with
      | none => rw [ht] at h; exact absurd h (by simp)
      | some q =>
        rw [ht] at h
        have hr := congrArg Prod.fst (Option.some.inj h)
        rw [← hr]
        exact transfer_keeps_idle pin b seg.data seg.count q ht hb
  · have h2 : rffc5071_spi_transfer_gather pin b segs count = some (b, segs) := by
      simp [rffc5071_spi_transfer_gather, hc]
    rw [h2] at h
    have hr := congrArg Prod.fst (Option.some.inj h)
    rw [← hr]
    exact hb

/-- C15: every 2-word transfer, from any starting state of the lines, in either
direction and whatever the chip answers, ends with the accesses delay, deselect,
data line to output, clock pulse, and returns with the enable line high, the
clock low and the data line an output, the reset line and the directions of the
clock, enable and reset lines being as on entry. Hence the idle state (enable
high, reset high, clock low, data line output) that `rffc5071_spi_init`
establishes is kept by every call of `rffc5071_spi_transfer` and of
`rffc5071_spi_transfer_gather` that returns; no access of a transfer writes the
reset line or the direction of the clock, enable or reset line. -/
theorem transfer_restores_idle_bus (pin : Pin) (b : Bus) (c d : Nat) (rest : List Nat) :
    (∃ body ws after,
      rffc5071_spi_transfer pin b (c :: d :: rest) 2 = some (after, ws) ∧
      after = play (body ++ [Event.delay, Event.drive Line.enx true, Event.dir Line.sdata true]
          ++ pulse) b ∧
      (∀ e ∈ body ++ [Event.delay, Event.drive Line.enx true, Event.dir Line.sdata true]
          ++ pulse, sparesResetAndDirections e = true) ∧
      after.lines.enx = true ∧ after.lines.sclk = false ∧ after.lines.sdata_out = true ∧
      after.lines.resetx = b.lines.resetx ∧ after.lines.sclk_out = b.lines.sclk_out ∧
      after.lines.enx_out = b.lines.enx_out ∧ after.lines.resetx_out = b.lines.resetx_out) ∧
    Idle (rffc5071_spi_init b).lines ∧
    (∀ data count r, rffc5071_spi_transfer pin b data count = some r →
      Idle b.lines → Idle r.1.lines) ∧
    (∀ segs count r, rffc5071_spi_transfer_gather pin b segs count = some r →
      Idle b.lines → Idle r.1.lines) := by
  have hf := transfer_final_lines (c.testBit 7) (bitsMSB c 9) (cmdSamples pin b c)
    (bitsMSB d 16) (dataSamples pin b c d) b
  exact ⟨⟨_, _, _, transfer_eq pin b c d rest, rfl,
      spares_transferEvents (c.testBit 7) (bitsMSB c 9) (cmdSamples pin b c) (bitsMSB d 16)
        (dataSamples pin b c d), hf⟩, ⟨rfl, rfl, rfl, rfl⟩,
    fun data count r h hb => transfer_keeps_idle pin b data count r h hb,
    fun segs count r h hb => transfer_gather_keeps_idle pin b segs count r h hb⟩

theorem transfer_restores_idle_bus_witness :
    Idle idleBus.lines ∧
    ∃ r, rffc5071_spi_transfer chipBEEF idleBus [0x85, 0] 2 = some r ∧ Idle r.1.lines := by
  obtain ⟨_, ws, after, heq, _⟩ := (transfer_restores_idle_bus chipBEEF idleBus 0x85 0 []).1
  exact ⟨⟨rfl, rfl, rfl, rfl⟩, (after, ws), heq,
    (transfer_restores_idle_bus chipBEEF idleBus 0x85 0 []).2.2.1 _ _ _ heq ⟨rfl, rfl, rfl, rfl⟩⟩

/-! ## Control accesses and clock discipline -/

theorem controlOf_append (xs ys : List Event) :
    controlOf (xs ++ ys) = controlOf xs ++ controlOf ys := by
  simp [controlOf]

theorem controlOf_wordEvents (vs : List Bool) :
    ∀ ss : List Bool, vs.length = ss.length →
      controlOf (wordEvents vs ss) = pulses ss.length := by
  induction vs with
  | nil => intro ss h; cases ss with
    | nil => rfl
    | cons s ss => simp at h
  | cons v vs ih => intro ss h; cases ss with
    | nil => simp at h
    | cons s ss =>
      have h2 : vs.length = ss.length := by simpa using h
      have hrec := ih ss h2
      have hsplit : wordEvents (v :: vs) (s :: ss) =
          [Event.drive Line.sdata v] ++ pulse ++ [Event.sample s] ++ wordEvents vs ss := by
        simp [wordEvents]
      rw [hsplit, controlOf_append, controlOf_append, controlOf_append, hrec]
      rfl

theorem controlOf_transferEvents (r : Bool) (v1 s1 v2 s2 : List Bool)
    (h1 : v1.length = s1.length) (h2 : v2.length = s2.length) :
    controlOf (transferEvents r v1 s1 v2 s2) =
      pulse ++ pulse ++ [Event.drive Line.enx false] ++ pulses s1.length ++
        (if r then Event.dir Line.sdata false :: pulse else []) ++ pulses s2.length ++
        [Event.delay, Event.drive Line.enx true, Event.dir Line.sdata true] ++ pulse := by
  have hp : controlOf pulse = pulse := rfl
  have hr : controlOf (if r = true then Event.dir Line.sdata false :: pulse else []) =
      (if r = true then Event.dir Line.sdata false :: pulse else []) := by
    cases r <;> rfl
  have ht : controlOf [Event.delay, Event.drive Line.enx true, Event.dir Line.sdata true] =
      [Event.delay, Event.drive Line.enx true, Event.dir Line.sdata true] := rfl
  have hs : controlOf [Event.drive Line.enx false] = [Event.drive Line.enx false] := rfl
  simp only [transferEvents, controlOf_append, hp, hr, ht, hs, controlOf_wordEvents _ _ h1,
    controlOf_wordEvents _ _ h2]

/-- C16: two 2-word transfers whose command words agree on bit 7 perform the same
sequence of clock writes, enable writes, data direction writes and delays,
whatever the buses they start from, the other command bits, the data words and
the levels read from the chip; they can differ only in the levels driven on the
data line, the levels read and the words returned. -/
theorem control_accesses_depend_on_bit7_only (pin1 pin2 : Pin) (b1 b2 : Bus)
    (c1 d1 c2 d2 : Nat) (rest1 rest2 : List Nat) (h : c1.testBit 7 = c2.testBit 7) :
    ∃ evs1 ws1 evs2 ws2,
      rffc5071_spi_transfer pin1 b1 (c1 :: d1 :: rest1) 2 = some (play evs1 b1, ws1) ∧
      rffc5071_spi_transfer pin2 b2 (c2 :: d2 :: rest2) 2 = some (play evs2 b2, ws2) ∧
      controlOf evs1 = controlOf evs2 := by
  refine ⟨_, _, _, _, transfer_eq pin1 b1 c1 d1 rest1, transfer_eq pin2 b2 c2 d2 rest2, ?_⟩
  rw [controlOf_transferEvents _ _ _ _ _
      (by rw [bitsMSB_length, cmdSamples_length]) (by rw [bitsMSB_length, dataSamples_length]),
    controlOf_transferEvents _ _ _ _ _
      (by rw [bitsMSB_length, cmdSamples_length]) (by rw [bitsMSB_length, dataSamples_length]),
    cmdSamples_length, cmdSamples_length, dataSamples_length, dataSamples_length, h]

theorem control_accesses_depend_on_bit7_only_witness :
    (0x85 : Nat).testBit 7 = (0x1FF : Nat).testBit 7 ∧
    ∃ evs1 ws1 evs2 ws2,
      rffc5071_spi_transfer chipBEEF idleBus [0x85, 0] 2 = some (play evs1 idleBus, ws1) ∧
      rffc5071_spi_transfer loopback (rffc5071_spi_sck idleBus) [0x1FF, 0xA5A5, 7] 2 =
        some (play evs2 (rffc5071_spi_sck idleBus), ws2) ∧
      controlOf evs1 = controlOf evs2 :=
  ⟨by decide, control_accesses_depend_on_bit7_only chipBEEF loopback idleBus
    (rffc5071_spi_sck idleBus) 0x85 0 0x1FF 0xA5A5 [] [7] (by decide)⟩

theorem clockAfter_emit (e : Event) (b : Bus) :
    (emit e b).lines.sclk = clockAfter b.lines.sclk e := by
  cases e with
  | pinmux l => rfl
  | sample v => rfl
  | delay => rfl
  | drive l v => cases l <;> rfl
  | dir l o => cases l <;> rfl

theorem lowClockWalk_sound (evs : List Event) :
    ∀ (b : Bus) (k : Bool), lowClockWalk b.lines.sclk evs = some k →
      (∀ p e rest, evs = p ++ e :: rest → needsLowClock e = true →
        (play p b).lines.sclk = false) ∧
      (play evs b).lines.sclk = k := by
  induction evs with
  | nil =>
    intro b k h
    refine ⟨fun p e rest hp _ => absurd hp (by simp), ?_⟩
    simpa [lowClockWalk] using h
  | cons e0 es ih =>
    intro b k h
    rw [lowClockWalk] at h
    by_cases hc : (needsLowClock e0 && b.lines.sclk) = true
    · rw [if_pos hc] at h
      exact absurd h (by simp)
    · rw [if_neg hc, ← clockAfter_emit] at h
      obtain ⟨ih1, ih2⟩ := ih (emit e0 b) k h
      refine ⟨?_, by rw [play_cons]; exact ih2⟩
      intro p e rest hp he
      cases p with
      | nil =>
        simp only [List.nil_append, List.cons.injEq] at hp
        rw [← hp.1] at he
        rw [he] at hc
        simpa using hc
      | cons x p =>
        simp only [List.cons_append, List.cons.injEq] at hp
        rw [play_cons, ← hp.1]
        exact ih1 p e rest hp.2 he

theorem lowClockWalk_append (xs ys : List Event) :
    ∀ clk, lowClockWalk clk (xs ++ ys) =
      (lowClockWalk clk xs).bind (fun k => lowClockWalk k ys) := by
  induction xs with
  | nil => intro clk; rfl
  | cons x xs ih =>
    intro clk
    simp only [List.cons_append, lowClockWalk]
    by_cases hc : (needsLowClock x && clk) = true
    · rw [if_pos hc, if_pos hc]; rfl
    · rw [if_neg hc, if_neg hc]
      exact ih _

theorem lowClockWalk_wordEvents (vs : List Bool) :
    ∀ ss : List Bool, lowClockWalk false (wordEvents vs ss) = some false := by
  induction vs with
  | nil => intro ss; rfl
  | cons v vs ih =>
    intro ss
    cases ss with
    | nil => rfl
    | cons s ss =>
      have hsplit : wordEvents (v :: vs) (s :: ss) =
          (Event.drive Line.sdata v :: pulse ++ [Event.sample s]) ++ wordEvents vs ss := by
        simp [wordEvents]
      have hbit : lowClockWalk false (Event.drive Line.sdata v :: pulse ++ [Event.sample s]) =
          some false := rfl
      rw [hsplit, lowClockWalk_append, hbit]
      exact ih ss

theorem lowClockWalk_transferEvents (r : Bool) (v1 s1 v2 s2 : List Bool) :
    lowClockWalk false (transferEvents r v1 s1 v2 s2) = some false := by
  have hp : lowClockWalk false pulse = some false := rfl
  have hs : lowClockWalk false [Event.drive Line.enx false] = some false := rfl
  have hr : lowClockWalk false (if r = true then Event.dir Line.sdata false :: pulse else []) =
      some false := by
    cases r <;> rfl
  have ht : lowClockWalk false
      [Event.delay, Event.drive Line.enx true, Event.dir Line.sdata true] = some false := rfl
  simp only [transferEvents, lowClockWalk_append, hp, hs, hr, ht, lowClockWalk_wordEvents,
    Option.some_bind]

/-- C17: if the clock is low on entry to a 2-word transfer, then the clock is low
at every drive of the data line, every write of the data direction, every write
of the enable line and every read of the data line during the call (in fact at
every access that is not a clock write or a delay), and it is low on return. -/
theorem lines_change_only_while_clock_low (pin : Pin) (b : Bus) (c d : Nat)
    (rest : List Nat) (h : b.lines.sclk = false) :
    ∃ evs ws,
      rffc5071_spi_transfer pin b (c :: d :: rest) 2 = some (play evs b, ws) ∧
      (∀ p e post, evs = p ++ e :: post →
        ((∃ v, e = Event.drive Line.sdata v) ∨ (∃ o, e = Event.dir Line.sdata o) ∨
          (∃ v, e = Event.drive Line.enx v) ∨ (∃ s, e = Event.sample s)) →
        (play p b).lines.sclk = false) ∧
      (∀ p e post, evs = p ++ e :: post →
        (∀ v, e ≠ Event.drive Line.sclk v) → e ≠ Event.delay →
        (play p b).lines.sclk = false) ∧
      (play evs b).lines.sclk = false := by
  have hw := lowClockWalk_transferEvents (c.testBit 7) (bitsMSB c 9) (cmdSamples pin b c)
    (bitsMSB d 16) (dataSamples pin b c d)
  have hw2 : lowClockWalk b.lines.sclk (transferEvents (c.testBit 7) (bitsMSB c 9)
      (cmdSamples pin b c) (bitsMSB d 16) (dataSamples pin b c d)) = some false := by
    rw [h]; exact hw
  obtain ⟨h1, h2⟩ := lowClockWalk_sound _ b false hw2
  refine ⟨_, _, transfer_eq pin b c d rest, ?_, ?_, h2⟩
  · intro p e post hp he
    apply h1 p e post hp
    rcases he with ⟨v, rfl⟩ | ⟨o, rfl⟩ | ⟨v, rfl⟩ | ⟨s, rfl⟩ <;> rfl
  · intro p e post hp hclk hdel
    apply h1 p e post hp
    cases e with
    | pinmux l => rfl
    | sample v => rfl
    | delay => exact absurd rfl hdel
    | dir l o => rfl
    | drive l v =>
      cases l
      · exact absurd rfl (hclk v)
      · rfl
      · rfl
      · rfl

theorem lines_change_only_while_clock_low_witness :
    idleBus.lines.sclk = false ∧
    ∃ evs ws,
      rffc5071_spi_transfer chipBEEF idleBus [0x85, 0] 2 = some (play evs idleBus, ws) ∧
      (∀ p e post, evs = p ++ e :: post →
        ((∃ v, e = Event.drive Line.sdata v) ∨ (∃ o, e = Event.dir Line.sdata o) ∨
          (∃ v, e = Event.drive Line.enx v) ∨ (∃ s, e = Event.sample s)) →
        (play p idleBus).lines.sclk = false) ∧
      (∀ p e post, evs = p ++ e :: post →
        (∀ v, e ≠ Event.drive Line.sclk v) → e ≠ Event.delay →
        (play p idleBus).lines.sclk = false) ∧
      (play evs idleBus).lines.sclk = false :=
  ⟨rfl, lines_change_only_while_clock_low chipBEEF idleBus 0x85 0 [] rfl⟩

/-! ## Write read-back -/

theorem wordRun_readback (pin : Pin)
    (hpin : ∀ x : Bus, x.lines.sdata_out = true → pin x = x.lines.sdata) (vs : List Bool) :
    ∀ b : Bus, b.lines.sdata_out = true → (wordRun pin vs b).1 = vs := by
  induction vs with
  | nil => intro b _; rfl
  | cons v vs ih =>
    intro b hb
    have h1 : pin (play (Event.drive Line.sdata v :: pulse) b) = v :=
      hpin (play (Event.drive Line.sdata v :: pulse) b) hb
    simp only [wordRun, h1]
    rw [ih (emit (Event.sample v) (play (Event.drive Line.sdata v :: pulse) b)) hb]

/-- C18: when a read of the data line returns the level last driven on it
whenever the line is an output, a 2-word write transfer (bit 7 of the command
clear) started with the data line as an output returns word 0 equal to the
command masked to its low 9 bits and word 1 equal to the data word; so for a
command below `2^9` the two words of the caller are unchanged. -/
theorem write_reads_back_own_words (pin : Pin) (b : Bus) (c d : Nat) (rest : List Nat)
    (hpin : ∀ x : Bus, x.lines.sdata_out = true → pin x = x.lines.sdata)
    (hw : c.testBit 7 = false) (hout : b.lines.sdata_out = true) (hd : d < 2 ^ 16) :
    ∃ after,
      rffc5071_spi_transfer pin b (c :: d :: rest) 2 = some (after, (c % 2 ^ 9) :: d :: rest) ∧
      (c < 2 ^ 9 → rffc5071_spi_transfer pin b (c :: d :: rest) 2 =
        some (after, c :: d :: rest)) := by
  have hcs : cmdSamples pin b c = bitsMSB c 9 :=
    wordRun_readback pin hpin (bitsMSB c 9) _ hout
  have hds : dataSamples pin b c d = bitsMSB d 16 := by
    apply wordRun_readback pin hpin (bitsMSB d 16)
    apply sdata_out_stays _ _ b hout
    simp [hw, dir_not_mem_pulse, dir_not_mem_wordEvents]
  have h := transfer_eq pin b c d rest
  rw [hcs, hds, ofBitsMSB_bitsMSB, ofBitsMSB_bitsMSB, Nat.mod_eq_of_lt hd] at h
  refine ⟨_, h, fun hc => ?_⟩
  rw [h, Nat.mod_eq_of_lt hc]

theorem write_reads_back_own_words_witness :
    (∀ x : Bus, x.lines.sdata_out = true → readback chipBEEF x = x.lines.sdata) ∧
    (0x145 : Nat).testBit 7 = false ∧ idleBus.lines.sdata_out = true ∧ 0xA5C3 < 2 ^ 16 ∧
    ∃ after,
      rffc5071_spi_transfer (readback chipBEEF) idleBus [0x145, 0xA5C3] 2 =
        some (after, [0x145 % 2 ^ 9, 0xA5C3]) ∧
      (0x145 < 2 ^ 9 → rffc5071_spi_transfer (readback chipBEEF) idleBus [0x145, 0xA5C3] 2 =
        some (after, [0x145, 0xA5C3])) :=
  ⟨fun x hx => by simp [readback, hx], by decide, rfl, by decide,
    write_reads_back_own_words (readback chipBEEF) idleBus 0x145 0xA5C3 []
      (fun x hx => by simp [readback, hx]) (by decide) rfl (by decide)⟩

end Rffc5071
